import Mathlib

/-!
# Usage history storage (`storage/history/history.go`)

A shallow embedding of the per-application usage history of the repository:
one SQLite database file per application, holding the single table

    CREATE TABLE IF NOT EXISTS records (
      time DATETIME NOT NULL PRIMARY KEY,
      count INTEGER NOT NULL);

and the Go functions `OpenAppUsageDB`, `MakeUsageRecord`, `AllUsageHistory`,
`cleanup`, `HistoryCleanup` and `GetPeakBetween` that issue SQL statements
against it.

Modelling decisions, all visible in the definitions below:

* a database file is the list of its rows in rowid order, that is the order in
  which the rows were inserted; the primary key on `time` is enforced by the
  `INSERT` statement, exactly as the engine does;
* Go `int64` arithmetic wraps (`wrapInt64`); values stored in SQLite are
  integers;
* the database driver hands an integer `v` of a `DATETIME` column to Go as
  `time.Unix(v, 0)` when `-10^12 <= v <= 10^12`, and otherwise reads `v` as
  milliseconds, `time.Unix(0, v * 1000000)` (`scanTime`);
* `time` is a primary key that is not an integer key, so the engine answers
  the range condition of `GetPeakBetween` by walking the index of the key: the
  rows in range arrive in ascending `time` order, and the sort for
  `ORDER BY -count LIMIT 1` keeps the order of arrival among equal keys;
* failures of the file system and of the engine are per-file flags
  (`openFault`, `writeFault`); logging is not modelled.
-/

namespace History

/-! ## Time and machine integers -/

/-- Go `time.Time` as far as this package observes it: whole seconds since the
Unix epoch and the nanoseconds within that second. -/
structure Time where
  sec : Int
  nsec : Nat
deriving DecidableEq, Repr

/-- Go `t.Unix()`: the seconds since the epoch, the sub-second part dropped. -/
def Time.Unix (t : Time) : Int := t.sec

/-- The order of points in time: `a` is not after `b`. -/
def Time.le (a b : Time) : Prop := a.sec < b.sec ∨ (a.sec = b.sec ∧ a.nsec ≤ b.nsec)

instance (a b : Time) : Decidable (Time.le a b) := by
  unfold Time.le; infer_instance

/-- Go `time.Unix(sec, 0)`. -/
def unixTime (sec : Int) : Time := ⟨sec, 0⟩

/-- Go `time.Unix(0, nsec)`: the seconds are the quotient rounded down, the
nanoseconds the non-negative remainder. -/
def unixNano (nsec : Int) : Time := ⟨nsec / 1000000000, (nsec % 1000000000).toNat⟩

/-- The zero value `time.Time{}` (January 1, year 1, 00:00:00 UTC). -/
def zeroTime : Time := ⟨-62135596800, 0⟩

/-- Two's-complement wrap-around of a mathematical integer to Go `int64`. -/
def wrapInt64 (x : Int) : Int :=
  (x + 9223372036854775808) % 18446744073709551616 - 9223372036854775808

/-- How the driver scans the integer `val` of a `DATETIME` column into a
`time.Time`: `if val > 1e12 || val < -1e12` the value is taken for
milliseconds, `val *= int64(time.Millisecond); t = time.Unix(0, val)`,
otherwise `t = time.Unix(val, 0)`. -/
def scanTime (val : Int) : Time :=
  if val > 1000000000000 ∨ val < -1000000000000 then unixNano (wrapInt64 (val * 1000000))
  else unixTime val

/-- The stored values that the driver reads as seconds. -/
def readAsSeconds (val : Int) : Prop := -1000000000000 ≤ val ∧ val ≤ 1000000000000

instance (val : Int) : Decidable (readAsSeconds val) := by
  unfold readAsSeconds; infer_instance

/-! ## The `records` table -/

/-- One row of `records`: `time` (Unix seconds) and `count`. -/
structure Row where
  time : Int
  count : Int
deriving DecidableEq, Repr

/-- The rows of `records` in rowid order (order of insertion). -/
abbrev Table := List Row

/-- The errors the package can return. -/
inductive Err
  /-- the database could not be opened or initialised -/
  | ioFailure
  /-- `UNIQUE constraint failed: records.time` -/
  | constraintUnique
  /-- the database rejected a write statement -/
  | readOnly
  /-- `sql.ErrNoRows` -/
  | noRows
  /-- `apps.AllUsableApps` failed -/
  | appsUnavailable
deriving DecidableEq, Repr

/-- Insert `x` into a list sorted by `key`, before the first element whose key
is not smaller. -/
def insertBy (key : Row → Int) (x : Row) : List Row → List Row
  | [] => [x]
  | y :: ys => if key x ≤ key y then x :: y :: ys else y :: insertBy key x ys

/-- SQL `ORDER BY key`: an ascending sort that keeps the order of arrival among
rows with equal keys. -/
def orderBy (key : Row → Int) : List Row → List Row
  | [] => []
  | x :: xs => insertBy key x (orderBy key xs)

/-- SQL `INSERT INTO records (time, count) VALUES (t, c)`: rejected when a row
with that `time` exists (primary key), otherwise the row gets the next rowid. -/
def insertRecord (tbl : Table) (t c : Int) : Except Err Table :=
  if tbl.any (fun r => r.time == t) then .error .constraintUnique
  else .ok (tbl ++ [⟨t, c⟩])

/-- SQL `SELECT time, count FROM records ORDER BY time`. -/
def selectAll (tbl : Table) : List Row := orderBy Row.time tbl

/-- SQL `DELETE FROM records WHERE count=0`. -/
def deleteZero (tbl : Table) : Table := tbl.filter (fun r => r.count != 0)

/-- SQL `time BETWEEN lo AND hi`. -/
def between (lo hi : Int) (r : Row) : Bool := decide (lo ≤ r.time) && decide (r.time ≤ hi)

/-- The rows with `time BETWEEN lo AND hi` in the order in which the engine
produces them: a walk of the primary-key index, ascending in `time`. -/
def indexRange (tbl : Table) (lo hi : Int) : List Row :=
  (orderBy Row.time tbl).filter (between lo hi)

/-- SQL `SELECT count, time FROM records WHERE time BETWEEN lo AND hi
ORDER BY -count LIMIT 1`. -/
def selectPeak (tbl : Table) (lo hi : Int) : Option Row :=
  (orderBy (fun r => -r.count) (indexRange tbl lo hi)).head?

/-! ## Database files -/

/-- The database file of one application. -/
structure AppFile where
  /-- the `records` table; `none` while the file has not been created -/
  records : Option Table
  /-- opening or initialising the database fails -/
  openFault : Bool
  /-- the database rejects statements that write -/
  writeFault : Bool
deriving DecidableEq, Repr

/-- The directory `data/history`: one file per application ID. -/
abbrev World := Int → AppFile

/-- Replace the `records` table of one application. -/
def setRecords (w : World) (appID : Int) (tbl : Table) : World :=
  Function.update w appID { w appID with records := some tbl }

/-- Go `OpenAppUsageDB`: open the file of `appID`, creating the file and the
table (`CREATE TABLE IF NOT EXISTS`) when missing. Returns the table. -/
def OpenAppUsageDB (w : World) (appID : Int) : World × Except Err Table :=
  if (w appID).openFault then (w, .error .ioFailure)
  else
    match (w appID).records with
    | some tbl => (w, .ok tbl)
    | none =>
      if (w appID).writeFault then (w, .error .ioFailure)
      else (setRecords w appID [], .ok [])

/-- Go `MakeUsageRecord`: insert `(currentTime.Unix(), userCount)` in one
transaction. -/
def MakeUsageRecord (w : World) (appID : Int) (userCount : Int) (currentTime : Time) :
    World × Option Err :=
  match OpenAppUsageDB w appID with
  | (w1, .error e) => (w1, some e)
  | (w1, .ok tbl) =>
    if (w1 appID).writeFault then (w1, some .readOnly)
    else
      match insertRecord tbl currentTime.Unix userCount with
      | .error e => (w1, some e)
      | .ok tbl1 => (setRecords w1 appID tbl1, none)

/-- The loop body of `AllUsageHistory`: `rows.Scan(&t, &record[1])`, then
`record[0] = t.Unix() * 1000`. -/
def jsRecord (r : Row) : Int × Int :=
  (wrapInt64 ((scanTime r.time).Unix * 1000), r.count)

/-- Go `AllUsageHistory`: all rows ordered by time, as `[2]int64` pairs. -/
def AllUsageHistory (w : World) (appID : Int) : World × List (Int × Int) × Option Err :=
  match OpenAppUsageDB w appID with
  | (w1, .error e) => (w1, [], some e)
  | (w1, .ok tbl) => (w1, (selectAll tbl).map jsRecord, none)

/-- Go `cleanup`: delete the zero rows of one application; errors are only
logged. -/
def cleanup (w : World) (appID : Int) : World :=
  match OpenAppUsageDB w appID with
  | (w1, .error _) => w1
  | (w1, .ok tbl) =>
    if (w1 appID).writeFault then w1
    else setRecords w1 appID (deleteZero tbl)

/-- An application as listed by `apps.AllUsableApps`. -/
structure App where
  ID : Int
  Name : String
deriving DecidableEq, Repr

/-- Go `HistoryCleanup`. The result of `apps.AllUsableApps()`, a function of
another package, is the parameter `allUsableApps`. -/
def HistoryCleanup (allUsableApps : Except Err (List App)) (w : World) : World × Option Err :=
  match allUsableApps with
  | .error e => (w, some e)
  | .ok applications => (applications.foldl (fun w1 app => cleanup w1 app.ID) w, none)

/-- The three results of `GetPeakBetween`. -/
structure Peak where
  count : Int
  time : Time
  err : Option Err
deriving DecidableEq, Repr

/-- Go `stmt.QueryRow(...).Scan(&count, &time)`: without a row the error is
`sql.ErrNoRows` and nothing is assigned; with a row, its count and its time as
the driver scans it. -/
def scanPeak : Option Row → Peak
  | none => ⟨0, zeroTime, some .noRows⟩
  | some r => ⟨r.count, scanTime r.time, none⟩

/-- Go `GetPeakBetween`: the first row of the peak query over
`[start.Unix(), end.Unix()]`, its `time` scanned by the driver; when the query
has no row, `Scan` fails with `sql.ErrNoRows` and the results keep their zero
values. -/
def GetPeakBetween (w : World) (start finish : Time) (appID : Int) : World × Peak :=
  match OpenAppUsageDB w appID with
  | (w1, .error e) => (w1, ⟨0, zeroTime, some e⟩)
  | (w1, .ok tbl) => (w1, scanPeak (selectPeak tbl start.Unix finish.Unix))

/-- Record a list of samples one after the other, collecting the errors. -/
def recordAll (w : World) (appID : Int) : List (Time × Int) → World × List (Option Err)
  | [] => (w, [])
  | (t, c) :: rest =>
    let r := MakeUsageRecord w appID c t
    let rs := recordAll r.1 appID rest
    (rs.1, r.2 :: rs.2)

/-- A database file without faults. -/
def Healthy (f : AppFile) : Prop := f.openFault = false ∧ f.writeFault = false

instance (f : AppFile) : Decidable (Healthy f) := by
  unfold Healthy; infer_instance

/-- The file can be opened: no open fault, and a missing file can be
created. -/
def Opens (f : AppFile) : Prop :=
  f.openFault = false ∧ (f.records = none → f.writeFault = false)

instance (f : AppFile) : Decidable (Opens f) := by
  unfold Opens; infer_instance

/-- The rows of a file (none while the file is missing). -/
def rowsOf (f : AppFile) : Table := f.records.getD []

/-- The row that `MakeUsageRecord` writes for a sample. -/
def toRow (s : Time × Int) : Row := ⟨s.1.Unix, s.2⟩

/-- The stored time of a row lies in the real interval `[start, end]`. -/
def insideInterval (start finish : Time) (r : Row) : Prop :=
  Time.le start (unixTime r.time) ∧ Time.le (unixTime r.time) finish

instance (start finish : Time) (r : Row) : Decidable (insideInterval start finish r) := by
  unfold insideInterval; infer_instance

/-- What `cleanup` does to the file of its application. -/
def cleanFile (f : AppFile) : AppFile :=
  if f.openFault then f
  else if f.writeFault then f
  else { f with records := some (deleteZero (rowsOf f)) }

/-! ## Sample stores -/

/-- The world in which no file exists yet. -/
def emptyWorld : World := fun _ => ⟨none, false, false⟩

/-- A store with one record, `(100, 5)`, for application 1. -/
def oneRecordWorld : World := (MakeUsageRecord emptyWorld 1 5 ⟨100, 0⟩).1

/-- Three samples, recorded out of time order, for application 1. -/
def threeSamples : List (Time × Int) := [(⟨300, 0⟩, 3), (⟨100, 250⟩, 5), (⟨200, 0⟩, 9)]

/-- Two samples at the seconds `10^12` and `10^12 + 1`. -/
def farSamples : List (Time × Int) :=
  [(⟨1000000000000, 0⟩, 3), (⟨1000000000001, 0⟩, 7)]

/-- A store whose only record has count 0: `(100, 0)`. -/
def zeroRecordWorld : World := (MakeUsageRecord emptyWorld 1 0 ⟨100, 0⟩).1

/-- Two records with the same count, the later one inserted first. -/
def tiedWorld : World := (recordAll emptyWorld 1 [(⟨200, 0⟩, 9), (⟨100, 0⟩, 9)]).1

/-- The same two records, the earlier one inserted first. -/
def tiedWorldSwapped : World := (recordAll emptyWorld 1 [(⟨100, 0⟩, 9), (⟨200, 0⟩, 9)]).1

/-- Three records with the same count: `(150, 9)`, `(100, 9)`, `(160, 9)`. -/
def threeTiedWorld : World :=
  (recordAll emptyWorld 1 [(⟨150, 0⟩, 9), (⟨100, 0⟩, 9), (⟨160, 0⟩, 9)]).1

/-- A store with the records `(100, 0)`, `(200, 7)`, `(300, 0)`. -/
def zeroSevenZeroWorld : World :=
  (recordAll emptyWorld 1 [(⟨100, 0⟩, 0), (⟨200, 0⟩, 7), (⟨300, 0⟩, 0)]).1

/-- Application 1 cannot be opened, application 2 holds `(100, 0)` and
`(200, 4)`, application 3 rejects writes and holds `(100, 0)`. -/
def mixedWorld : World := fun j =>
  if j = 1 then ⟨some [⟨100, 0⟩], true, false⟩
  else if j = 2 then ⟨some [⟨100, 0⟩, ⟨200, 4⟩], false, false⟩
  else if j = 3 then ⟨some [⟨100, 0⟩], false, true⟩
  else ⟨none, false, false⟩

/-! ## Facts about `ORDER BY` -/

theorem insertBy_cons (key : Row → Int) (x y : Row) (ys : List Row) :
    insertBy key x (y :: ys) =
      if key x ≤ key y then x :: y :: ys else y :: insertBy key x ys := rfl

theorem orderBy_cons (key : Row → Int) (x : Row) (xs : List Row) :
    orderBy key (x :: xs) = insertBy key x (orderBy key xs) := rfl

theorem insertBy_perm (key : Row → Int) (x : Row) (l : List Row) :
    (insertBy key x l).Perm (x :: l) := by
  induction l with
  | nil => simp [insertBy]
  | cons y ys ih =>
    rw [insertBy_cons]
    split
    · exact List.Perm.refl _
    · exact (List.Perm.cons y ih).trans (List.Perm.swap x y ys)

theorem orderBy_perm (key : Row → Int) (l : List Row) : (orderBy key l).Perm l := by
  induction l with
  | nil => simp [orderBy]
  | cons x xs ih =>
    rw [orderBy_cons]
    exact (insertBy_perm key x _).trans (List.Perm.cons x ih)

theorem mem_orderBy (key : Row → Int) (l : List Row) (r : Row) :
    r ∈ orderBy key l ↔ r ∈ l := (orderBy_perm key l).mem_iff

theorem insertBy_sorted (key : Row → Int) (x : Row) (l : List Row)
    (h : l.Pairwise (fun a b => key a ≤ key b)) :
    (insertBy key x l).Pairwise (fun a b => key a ≤ key b) := by
  induction l with
  | nil => simp [insertBy]
  | cons y ys ih =>
    rw [insertBy_cons]
    rw [List.pairwise_cons] at h
    split
    · rename_i hxy
      refine List.pairwise_cons.2 ⟨?_, List.pairwise_cons.2 h⟩
      intro a ha
      rcases List.mem_cons.1 ha with rfl | ha
      · exact hxy
      · exact le_trans hxy (h.1 a ha)
    · rename_i hxy
      refine List.pairwise_cons.2 ⟨?_, ih h.2⟩
      intro a ha
      rcases List.mem_cons.1 ((insertBy_perm key x ys).mem_iff.1 ha) with rfl | ha
      · exact le_of_lt (not_le.1 hxy)
      · exact h.1 a ha

theorem orderBy_sorted (key : Row → Int) (l : List Row) :
    (orderBy key l).Pairwise (fun a b => key a ≤ key b) := by
  induction l with
  | nil => simp [orderBy]
  | cons x xs ih =>
    rw [orderBy_cons]
    exact insertBy_sorted key x _ ih

/-- A list that is already in ascending key order is left as it is. -/
theorem orderBy_of_sorted (key : Row → Int) (l : List Row)
    (h : l.Pairwise (fun a b => key a ≤ key b)) : orderBy key l = l := by
  induction l with
  | nil => simp [orderBy]
  | cons x xs ih =>
    rw [List.pairwise_cons] at h
    rw [orderBy_cons]
    rw [ih h.2]
    cases xs with
    | nil => simp [insertBy]
    | cons y ys =>
      rw [insertBy_cons]
      rw [if_pos (h.1 y (List.mem_cons_self _ _))]

/-- Filtering commutes with inserting into a sorted list. -/
theorem filter_insertBy (key : Row → Int) (q : Row → Bool) (x : Row) (l : List Row)
    (h : l.Pairwise (fun a b => key a ≤ key b)) :
    (insertBy key x l).filter q =
      if q x then insertBy key x (l.filter q) else l.filter q := by
  induction l with
  | nil => cases hq : q x <;> simp [insertBy, hq]
  | cons y ys ih =>
    rw [List.pairwise_cons] at h
    have ih1 := ih h.2
    rw [insertBy_cons]
    by_cases hxy : key x ≤ key y
    · rw [if_pos hxy]
      cases hqx : q x
      · simp [List.filter_cons, hqx]
      · cases hqy : q y
        · simp only [List.filter_cons, hqx, hqy, if_true]
          simp only [Bool.false_eq_true, if_false]
          have hs : (ys.filter q).Pairwise (fun a b => key a ≤ key b) :=
            h.2.sublist (List.filter_sublist ys)
          have hall : ∀ a ∈ ys.filter q, key x ≤ key a := fun a ha =>
            le_trans hxy (h.1 a (List.mem_of_mem_filter ha))
          cases hf : ys.filter q with
          | nil => simp [insertBy]
          | cons z zs =>
            have hz : key x ≤ key z := hall z (by rw [hf]; exact List.mem_cons_self _ _)
            simp [insertBy, hz]
        · simp [List.filter_cons, hqx, hqy, insertBy, hxy]
    · rw [if_neg hxy]
      cases hqy : q y
      · simp only [List.filter_cons, hqy, Bool.false_eq_true, if_false]
        exact ih1
      · simp only [List.filter_cons, hqy, if_true]
        rw [ih1]
        cases hqx : q x
        · simp
        · simp [insertBy, hxy]

/-- SQL: a `WHERE` filter may be applied before or after `ORDER BY`. -/
theorem filter_orderBy (key : Row → Int) (q : Row → Bool) (l : List Row) :
    (orderBy key l).filter q = orderBy key (l.filter q) := by
  induction l with
  | nil => simp [orderBy]
  | cons x xs ih =>
    rw [orderBy_cons]
    rw [filter_insertBy key q x _ (orderBy_sorted key xs), ih]
    cases hqx : q x
    · simp [List.filter_cons, hqx]
    · simp [List.filter_cons, hqx, orderBy]

/-- The first row of `ORDER BY key` is the first visited row among those with
the least key. -/
theorem head_orderBy (key : Row → Int) (l : List Row) (r : Row)
    (h : (orderBy key l).head? = some r) :
    ∃ pre post, l = pre ++ r :: post ∧ (∀ x ∈ pre, key r < key x) ∧
      (∀ x ∈ post, key r ≤ key x) := by
  induction l generalizing r with
  | nil => simp [orderBy] at h
  | cons a l ih =>
    rw [orderBy_cons] at h
    cases hs : orderBy key l with
    | nil =>
      have hl : l = [] := by
        have := (orderBy_perm key l).length_eq
        rw [hs] at this
        exact List.length_eq_zero.1 this.symm
      rw [hs] at h
      simp [insertBy] at h
      subst h; subst hl
      exact ⟨[], [], rfl, by simp, by simp⟩
    | cons m ms =>
      obtain ⟨pre, post, hl, hpre, hpost⟩ := ih m (by rw [hs]; rfl)
      rw [hs] at h
      rw [insertBy_cons] at h
      by_cases ham : key a ≤ key m
      · rw [if_pos ham] at h
        simp at h
        subst h
        refine ⟨[], l, rfl, by simp, ?_⟩
        intro x hx
        rw [hl] at hx
        rcases List.mem_append.1 hx with hx | hx
        · exact le_trans ham (le_of_lt (hpre x hx))
        · rcases List.mem_cons.1 hx with rfl | hx
          · exact ham
          · exact le_trans ham (hpost x hx)
      · rw [if_neg ham] at h
        simp at h
        subst h
        refine ⟨a :: pre, post, by rw [hl]; rfl, ?_, hpost⟩
        intro x hx
        rcases List.mem_cons.1 hx with rfl | hx
        · exact not_le.1 ham
        · exact hpre x hx

theorem orderBy_eq_nil (key : Row → Int) (l : List Row) : orderBy key l = [] ↔ l = [] := by
  constructor
  · intro h
    have := (orderBy_perm key l).length_eq
    rw [h] at this
    exact List.length_eq_zero.1 this.symm
  · intro h
    subst h
    rfl

/-! ## Facts about the database files -/

theorem setRecords_same (w : World) (appID : Int) (tbl : Table) :
    setRecords w appID tbl appID = { w appID with records := some tbl } := by
  simp [setRecords]

theorem setRecords_other (w : World) (appID j : Int) (tbl : Table) (h : j ≠ appID) :
    setRecords w appID tbl j = w j := by
  simp [setRecords, Function.update, h]

theorem setRecords_setRecords (w : World) (appID : Int) (a b : Table) :
    setRecords (setRecords w appID a) appID b = setRecords w appID b := by
  funext j
  by_cases h : j = appID
  · subst h
    simp [setRecords]
  · simp [setRecords, Function.update, h]

theorem any_time_iff (tbl : Table) (t : Int) :
    tbl.any (fun r => r.time == t) = true ↔ ∃ r ∈ tbl, r.time = t := by
  simp [List.any_eq_true]

/-- Recording at a time that is not in a healthy store appends the row. -/
theorem MakeUsageRecord_fresh (w : World) (appID c : Int) (t : Time)
    (hH : Healthy (w appID)) (hfree : ∀ r ∈ rowsOf (w appID), r.time ≠ t.Unix) :
    MakeUsageRecord w appID c t =
      (setRecords w appID (rowsOf (w appID) ++ [⟨t.Unix, c⟩]), none) := by
  obtain ⟨ho, hw⟩ := hH
  have hany : ∀ tbl : Table, tbl = rowsOf (w appID) →
      tbl.any (fun r => r.time == t.Unix) = false := by
    intro tbl htbl
    rw [Bool.eq_false_iff]
    intro h
    obtain ⟨r, hr, hrt⟩ := (any_time_iff tbl t.Unix).1 h
    exact hfree r (htbl ▸ hr) hrt
  cases hrec : (w appID).records with
  | none =>
    simp [MakeUsageRecord, OpenAppUsageDB, ho, hw, hrec, insertRecord, rowsOf,
      setRecords_same, setRecords_setRecords]
  | some tbl =>
    have h1 := hany tbl (by simp [rowsOf, hrec])
    simp [MakeUsageRecord, OpenAppUsageDB, ho, hw, hrec, insertRecord, rowsOf, h1]

/-- Recording at a time that is already in the store fails and changes
nothing. -/
theorem MakeUsageRecord_dup (w : World) (appID c : Int) (t : Time)
    (hdup : ∃ r ∈ rowsOf (w appID), r.time = t.Unix) :
    (MakeUsageRecord w appID c t).1 = w ∧ (MakeUsageRecord w appID c t).2 ≠ none ∧
      (Healthy (w appID) → (MakeUsageRecord w appID c t).2 = some Err.constraintUnique) := by
  cases hrec : (w appID).records with
  | none =>
    obtain ⟨r, hr, _⟩ := hdup
    simp [rowsOf, hrec] at hr
  | some tbl =>
    have h1 : tbl.any (fun r => r.time == t.Unix) = true := by
      rw [any_time_iff]
      simpa [rowsOf, hrec] using hdup
    cases ho : (w appID).openFault <;> cases hw : (w appID).writeFault <;>
      simp [MakeUsageRecord, OpenAppUsageDB, ho, hw, hrec, insertRecord, h1, Healthy]

/-- A call of `MakeUsageRecord` succeeds exactly on a healthy store that has
no row at that second. -/
theorem MakeUsageRecord_ok_iff (w : World) (appID c : Int) (t : Time) :
    (MakeUsageRecord w appID c t).2 = none ↔
      Healthy (w appID) ∧ ∀ r ∈ rowsOf (w appID), r.time ≠ t.Unix := by
  constructor
  · intro h
    have hH : Healthy (w appID) := by
      cases ho : (w appID).openFault <;> cases hw : (w appID).writeFault <;>
        cases hrec : (w appID).records <;>
        simp [MakeUsageRecord, OpenAppUsageDB, ho, hw, hrec, Healthy, setRecords_same] at h ⊢
    refine ⟨hH, ?_⟩
    intro r hr hrt
    exact (MakeUsageRecord_dup w appID c t ⟨r, hr, hrt⟩).2.1 h
  · rintro ⟨hH, hfree⟩
    rw [MakeUsageRecord_fresh w appID c t hH hfree]

/-- Reading the history of a store that opens. -/
theorem AllUsageHistory_open (w : World) (appID : Int)
    (ho : (w appID).openFault = false)
    (hw : (w appID).records = none → (w appID).writeFault = false) :
    (AllUsageHistory w appID).2 = ((selectAll (rowsOf (w appID))).map jsRecord, none) := by
  cases hrec : (w appID).records with
  | none =>
    simp [AllUsageHistory, OpenAppUsageDB, ho, hw hrec, hrec, rowsOf, selectAll, orderBy]
  | some tbl =>
    simp [AllUsageHistory, OpenAppUsageDB, ho, hrec, rowsOf]

theorem AllUsageHistory_healthy (w : World) (appID : Int) (hH : Healthy (w appID)) :
    (AllUsageHistory w appID).2 = ((selectAll (rowsOf (w appID))).map jsRecord, none) :=
  AllUsageHistory_open w appID hH.1 (fun _ => hH.2)

theorem healthy_setRecords (w : World) (appID : Int) (tbl : Table) :
    Healthy (setRecords w appID tbl appID) ↔ Healthy (w appID) := by
  simp [Healthy, setRecords_same]

theorem rowsOf_setRecords (w : World) (appID : Int) (tbl : Table) :
    rowsOf (setRecords w appID tbl appID) = tbl := by
  simp [rowsOf, setRecords_same]

theorem selectAll_append_perm (tbl : Table) (r : Row) :
    (selectAll (tbl ++ [r])).Perm (r :: selectAll tbl) := by
  unfold selectAll
  refine (orderBy_perm _ _).trans ?_
  refine List.perm_append_singleton r tbl |>.trans ?_
  exact List.Perm.cons r (orderBy_perm _ _).symm

theorem recordAll_cons (w : World) (appID : Int) (t : Time) (c : Int)
    (rest : List (Time × Int)) :
    recordAll w appID ((t, c) :: rest) =
      ((recordAll (MakeUsageRecord w appID c t).1 appID rest).1,
        (MakeUsageRecord w appID c t).2 ::
          (recordAll (MakeUsageRecord w appID c t).1 appID rest).2) := rfl

/-- When every call of a run of `MakeUsageRecord` succeeds, the table is the
old table followed by the new rows in call order, and no two rows share a
time. -/
theorem recordAll_ok (appID : Int) (samples : List (Time × Int)) :
    ∀ w : World, Healthy (w appID) →
      (rowsOf (w appID)).Pairwise (fun a b => a.time ≠ b.time) →
      (∀ e ∈ (recordAll w appID samples).2, e = none) →
      Healthy ((recordAll w appID samples).1 appID) ∧
      rowsOf ((recordAll w appID samples).1 appID) =
        rowsOf (w appID) ++ samples.map toRow ∧
      (rowsOf ((recordAll w appID samples).1 appID)).Pairwise
        (fun a b => a.time ≠ b.time) := by
  induction samples with
  | nil =>
    intro w hH hnd _
    exact ⟨hH, by simp [recordAll], by simpa [recordAll] using hnd⟩
  | cons s rest ih =>
    obtain ⟨t, c⟩ := s
    intro w hH hnd hok
    rw [recordAll_cons] at hok ⊢
    have h1 : (MakeUsageRecord w appID c t).2 = none := hok _ (List.mem_cons_self _ _)
    have hfree := ((MakeUsageRecord_ok_iff w appID c t).1 h1).2
    have hrest : ∀ e ∈ (recordAll (MakeUsageRecord w appID c t).1 appID rest).2, e = none :=
      fun e he => hok e (List.mem_cons_of_mem _ he)
    have hw1 := MakeUsageRecord_fresh w appID c t hH hfree
    have hH1 : Healthy ((MakeUsageRecord w appID c t).1 appID) := by
      rw [hw1]; exact (healthy_setRecords w appID _).2 hH
    have hrows1 : rowsOf ((MakeUsageRecord w appID c t).1 appID) =
        rowsOf (w appID) ++ [⟨t.Unix, c⟩] := by
      rw [hw1]; exact rowsOf_setRecords w appID _
    have hnd1 : (rowsOf ((MakeUsageRecord w appID c t).1 appID)).Pairwise
        (fun a b => a.time ≠ b.time) := by
      rw [hrows1, List.pairwise_append]
      refine ⟨hnd, List.pairwise_singleton _ _, ?_⟩
      intro a ha b hb
      rw [List.mem_singleton] at hb
      subst hb
      exact hfree a ha
    obtain ⟨g1, g2, g3⟩ := ih _ hH1 hnd1 hrest
    refine ⟨g1, ?_, g3⟩
    rw [g2, hrows1]
    simp [toRow]

/-- Rows with pairwise different times come out of `ORDER BY time` in strictly
ascending order. -/
theorem selectAll_strict (tbl : Table) (hnd : tbl.Pairwise (fun a b => a.time ≠ b.time)) :
    (selectAll tbl).Pairwise (fun a b => a.time < b.time) := by
  have hs : (selectAll tbl).Pairwise (fun a b => a.time ≤ b.time) := orderBy_sorted _ _
  have hn : (selectAll tbl).Pairwise (fun a b => a.time ≠ b.time) :=
    (List.Perm.pairwise_iff (fun {a b} (h : a.time ≠ b.time) => Ne.symm h)
      (orderBy_perm Row.time tbl)).2 hnd
  exact (hs.and hn).imp (fun {a b} h => lt_of_le_of_ne h.1 h.2)

theorem between_iff (lo hi : Int) (r : Row) :
    between lo hi r = true ↔ lo ≤ r.time ∧ r.time ≤ hi := by
  simp [between]

theorem deleteZero_idem (tbl : Table) : deleteZero (deleteZero tbl) = deleteZero tbl := by
  simp [deleteZero, List.filter_filter]

theorem cleanFile_idem (f : AppFile) : cleanFile (cleanFile f) = cleanFile f := by
  cases ho : f.openFault <;> cases hw : f.writeFault <;>
    simp [cleanFile, ho, hw, rowsOf, deleteZero_idem]

/-- A call of `cleanup` rewrites the file of its application and nothing
else. -/
theorem cleanup_eq (w : World) (appID : Int) :
    cleanup w appID = Function.update w appID (cleanFile (w appID)) := by
  cases ho : (w appID).openFault <;> cases hw : (w appID).writeFault <;>
    cases hrec : (w appID).records <;>
    simp [cleanup, OpenAppUsageDB, cleanFile, ho, hw, hrec, rowsOf, setRecords,
      setRecords_same, deleteZero]

theorem cleanup_same (w : World) (appID : Int) :
    cleanup w appID appID = cleanFile (w appID) := by
  rw [cleanup_eq]; simp

theorem cleanup_other (w : World) (appID j : Int) (h : j ≠ appID) :
    cleanup w appID j = w j := by
  rw [cleanup_eq]; simp [Function.update, h]

theorem cleanFile_healthy (f : AppFile) (hH : Healthy f) :
    cleanFile f = { f with records := some (deleteZero (rowsOf f)) } := by
  simp [cleanFile, hH.1, hH.2]

/-- The history read from a table without its zero rows is the history of the
table without the pairs of count 0. -/
theorem history_deleteZero (tbl : Table) :
    (selectAll (deleteZero tbl)).map jsRecord =
      ((selectAll tbl).map jsRecord).filter (fun q => q.2 != 0) := by
  unfold selectAll deleteZero
  rw [← filter_orderBy, List.filter_map]
  rfl

/-- On a healthy store whose times, old and new, are pairwise distinct, every
call of a run of `MakeUsageRecord` succeeds. -/
theorem recordAll_distinct (appID : Int) (samples : List (Time × Int)) :
    ∀ w : World, Healthy (w appID) →
      (rowsOf (w appID) ++ samples.map toRow).Pairwise (fun a b => a.time ≠ b.time) →
      ∀ e ∈ (recordAll w appID samples).2, e = none := by
  induction samples with
  | nil => intro w _ _ e he; simp [recordAll] at he
  | cons s rest ih =>
    obtain ⟨t, c⟩ := s
    intro w hH hnd e he
    rw [recordAll_cons] at he
    have hfree : ∀ r ∈ rowsOf (w appID), r.time ≠ t.Unix := by
      intro r hr
      rw [List.pairwise_append] at hnd
      exact hnd.2.2 r hr (toRow (t, c)) (by simp)
    have hw1 := MakeUsageRecord_fresh w appID c t hH hfree
    rcases List.mem_cons.1 he with rfl | he1
    · rw [hw1]
    · refine ih (MakeUsageRecord w appID c t).1 ?_ ?_ e he1
      · rw [hw1]; exact (healthy_setRecords w appID _).2 hH
      · rw [hw1, rowsOf_setRecords]
        simpa [toRow] using hnd

theorem foldl_cleanup (l : List App) :
    ∀ (w : World) (j : Int), l.foldl (fun w1 app => cleanup w1 app.ID) w j =
      if j ∈ l.map App.ID then cleanFile (w j) else w j := by
  induction l with
  | nil => intro w j; simp
  | cons a l ih =>
    intro w j
    rw [List.foldl_cons, ih]
    by_cases hja : j = a.ID
    · subst hja
      by_cases hjl : a.ID ∈ l.map App.ID
      · simp [hjl, cleanup_same, cleanFile_idem]
      · simp only [hjl, if_false, cleanup_same]
        simp
    · rw [cleanup_other w a.ID j hja]
      have : j ∈ (a :: l).map App.ID ↔ j ∈ l.map App.ID := by
        simp [hja]
      by_cases hjl : j ∈ l.map App.ID
      · rw [if_pos hjl, if_pos (this.2 hjl)]
      · rw [if_neg hjl, if_neg (fun h => hjl (this.1 h))]

/-! ## Facts about the driver and the peak query -/

/-- A stored time within `10^12` seconds of the epoch is scanned as it is. -/
theorem scanTime_seconds (v : Int) (h : readAsSeconds v) : scanTime v = unixTime v := by
  unfold readAsSeconds at h
  unfold scanTime
  rw [if_neg (by omega)]

/-- The pair returned for a row whose time is read as seconds. -/
theorem jsRecord_seconds (v c : Int) (h : readAsSeconds v) :
    jsRecord ⟨v, c⟩ = (1000 * v, c) := by
  unfold jsRecord
  rw [scanTime_seconds v h]
  unfold readAsSeconds at h
  simp only [unixTime, Time.Unix, wrapInt64]
  congr 1
  omega

/-- After a successful record on a healthy store the history has one more
pair, the one of the new row. -/
theorem history_after_fresh (w : World) (appID c : Int) (t : Time)
    (hH : Healthy (w appID)) (hfree : ∀ r ∈ rowsOf (w appID), r.time ≠ t.Unix) :
    (AllUsageHistory (MakeUsageRecord w appID c t).1 appID).2.2 = none ∧
    ((AllUsageHistory (MakeUsageRecord w appID c t).1 appID).2.1).Perm
      (jsRecord ⟨t.Unix, c⟩ :: (AllUsageHistory w appID).2.1) := by
  rw [MakeUsageRecord_fresh w appID c t hH hfree]
  rw [AllUsageHistory_healthy _ appID ((healthy_setRecords w appID _).2 hH),
    AllUsageHistory_healthy w appID hH, rowsOf_setRecords]
  refine ⟨rfl, ?_⟩
  exact (selectAll_append_perm _ _).map jsRecord

theorem mem_indexRange (tbl : Table) (lo hi : Int) (r : Row) :
    r ∈ indexRange tbl lo hi ↔ r ∈ tbl ∧ lo ≤ r.time ∧ r.time ≤ hi := by
  unfold indexRange
  rw [List.mem_filter, mem_orderBy, between_iff]

theorem indexRange_sorted (tbl : Table) (lo hi : Int) :
    (indexRange tbl lo hi).Pairwise (fun a b => a.time ≤ b.time) :=
  (orderBy_sorted Row.time tbl).filter _

/-- The peak query has no row exactly when no row of the table is in range. -/
theorem selectPeak_none_iff (tbl : Table) (lo hi : Int) :
    selectPeak tbl lo hi = none ↔ ∀ r ∈ tbl, ¬ (lo ≤ r.time ∧ r.time ≤ hi) := by
  unfold selectPeak
  rw [List.head?_eq_none_iff, orderBy_eq_nil, List.eq_nil_iff_forall_not_mem]
  constructor
  · intro h r hr hb
    exact h r ((mem_indexRange tbl lo hi r).2 ⟨hr, hb⟩)
  · intro h r hr
    have := (mem_indexRange tbl lo hi r).1 hr
    exact h r this.1 this.2

/-- The row of the peak query is a row of the table, in range, no row in range
has a larger count, and no row in range with the same count has a smaller
time. -/
theorem selectPeak_some (tbl : Table) (lo hi : Int) (r : Row)
    (h : selectPeak tbl lo hi = some r) :
    r ∈ tbl ∧ (lo ≤ r.time ∧ r.time ≤ hi) ∧
      (∀ x ∈ tbl, lo ≤ x.time → x.time ≤ hi → x.count ≤ r.count) ∧
      (∀ x ∈ tbl, lo ≤ x.time → x.time ≤ hi → x.count = r.count → r.time ≤ x.time) := by
  unfold selectPeak at h
  obtain ⟨pre, post, hl, hpre, hpost⟩ := head_orderBy _ _ r h
  have hsorted := indexRange_sorted tbl lo hi
  rw [hl, List.pairwise_append, List.pairwise_cons] at hsorted
  have hr : r ∈ indexRange tbl lo hi := by
    rw [hl]; simp
  have hr1 := (mem_indexRange tbl lo hi r).1 hr
  have hcases : ∀ x ∈ tbl, lo ≤ x.time → x.time ≤ hi →
      x ∈ pre ∨ x = r ∨ x ∈ post := by
    intro x hx h1 h2
    have hx1 : x ∈ indexRange tbl lo hi := (mem_indexRange tbl lo hi x).2 ⟨hx, h1, h2⟩
    rw [hl] at hx1
    rcases List.mem_append.1 hx1 with hx2 | hx2
    · exact Or.inl hx2
    · exact Or.inr (List.mem_cons.1 hx2)
  refine ⟨hr1.1, hr1.2, ?_, ?_⟩
  · intro x hx h1 h2
    rcases hcases x hx h1 h2 with hx2 | rfl | hx2
    · have := hpre x hx2
      omega
    · exact le_refl _
    · have := hpost x hx2
      omega
  · intro x hx h1 h2 hc
    rcases hcases x hx h1 h2 with hx2 | rfl | hx2
    · have := hpre x hx2
      omega
    · exact le_refl _
    · exact hsorted.2.1.1 x hx2

/-- Tables with the same rows, no two at the same time, give the same answer
to the peak query. -/
theorem selectPeak_perm (tbl1 tbl2 : Table) (lo hi : Int) (hp : tbl2.Perm tbl1)
    (hnd : tbl1.Pairwise (fun a b => a.time ≠ b.time)) :
    selectPeak tbl2 lo hi = selectPeak tbl1 lo hi := by
  have hnd2 : tbl2.Pairwise (fun a b => a.time ≠ b.time) :=
    (List.Perm.pairwise_iff (fun {a b} (h : a.time ≠ b.time) => Ne.symm h) hp).2 hnd
  have h1 := selectAll_strict tbl1 hnd
  have h2 := selectAll_strict tbl2 hnd2
  have hperm : (selectAll tbl2).Perm (selectAll tbl1) :=
    ((orderBy_perm _ tbl2).trans hp).trans (orderBy_perm _ tbl1).symm
  have hanti : IsAntisymm Row (fun a b => a.time < b.time) :=
    ⟨fun a b hab hba => absurd hab (not_lt.2 (le_of_lt hba))⟩
  have heq : orderBy Row.time tbl2 = orderBy Row.time tbl1 :=
    List.eq_of_perm_of_sorted hperm h2 h1
  unfold selectPeak indexRange
  rw [heq]

/-- What `GetPeakBetween` returns on a store that opens. -/
theorem GetPeakBetween_open (w : World) (start finish : Time) (appID : Int)
    (hopen : Opens (w appID)) :
    (GetPeakBetween w start finish appID).2 =
      scanPeak (selectPeak (rowsOf (w appID)) start.Unix finish.Unix) := by
  obtain ⟨ho, hw⟩ := hopen
  cases hrec : (w appID).records with
  | none => simp [GetPeakBetween, OpenAppUsageDB, ho, hw hrec, hrec, rowsOf]
  | some tbl => simp [GetPeakBetween, OpenAppUsageDB, ho, hrec, rowsOf]

theorem scanPeak_seconds (r : Row) (h : readAsSeconds r.time) :
    scanPeak (some r) = ⟨r.count, unixTime r.time, none⟩ := by
  simp only [scanPeak, scanTime_seconds r.time h]

/-- A store that has rows and no open fault opens. -/
theorem opens_of_rows (f : AppFile) (ho : f.openFault = false) (r : Row)
    (hr : r ∈ rowsOf f) : Opens f := by
  refine ⟨ho, fun hnone => ?_⟩
  simp [rowsOf, hnone] at hr

/-! ## The claims -/

/-- C1: when the store of an application already holds a record at the second
`t.Unix()`, a further `MakeUsageRecord` at that second returns an error and
leaves every file as it was, so `AllUsageHistory` is the same before and after;
on a store without faults the error is the violation of the primary key, and
the pair of the first record, with its count `c`, is still in the history
(with the time `1000 * t.Unix()` when the driver reads the time as seconds). -/
theorem duplicate_time_rejected (w : World) (appID c c2 : Int) (t : Time)
    (hrec : (⟨t.Unix, c⟩ : Row) ∈ rowsOf (w appID)) :
    (MakeUsageRecord w appID c2 t).2 ≠ none ∧
    (MakeUsageRecord w appID c2 t).1 = w ∧
    AllUsageHistory (MakeUsageRecord w appID c2 t).1 appID = AllUsageHistory w appID ∧
    (Healthy (w appID) →
      (MakeUsageRecord w appID c2 t).2 = some Err.constraintUnique ∧
      jsRecord ⟨t.Unix, c⟩ ∈ (AllUsageHistory (MakeUsageRecord w appID c2 t).1 appID).2.1 ∧
      (jsRecord ⟨t.Unix, c⟩).2 = c ∧
      (readAsSeconds t.Unix →
        (1000 * t.Unix, c) ∈ (AllUsageHistory (MakeUsageRecord w appID c2 t).1 appID).2.1)) := by
  obtain ⟨h1, h2, h3⟩ := MakeUsageRecord_dup w appID c2 t ⟨_, hrec, rfl⟩
  have hmem : Healthy (w appID) →
      jsRecord ⟨t.Unix, c⟩ ∈ (AllUsageHistory (MakeUsageRecord w appID c2 t).1 appID).2.1 := by
    intro hH
    rw [h1, AllUsageHistory_healthy w appID hH]
    refine List.mem_map.2 ⟨⟨t.Unix, c⟩, ?_, rfl⟩
    exact (mem_orderBy _ _ _).2 hrec
  refine ⟨h2, h1, by rw [h1], fun hH => ⟨h3 hH, hmem hH, rfl, fun hr => ?_⟩⟩
  rw [← jsRecord_seconds t.Unix c hr]
  exact hmem hH

/-- C1 at a concrete store: a second record at second 100 is rejected. -/
theorem duplicate_time_rejected_witness :
    (⟨(⟨100, 7⟩ : Time).Unix, 5⟩ : Row) ∈ rowsOf (oneRecordWorld 1) ∧
    (MakeUsageRecord oneRecordWorld 1 8 ⟨100, 7⟩).2 = some Err.constraintUnique ∧
    (AllUsageHistory (MakeUsageRecord oneRecordWorld 1 8 ⟨100, 7⟩).1 1).2 =
      ([(100000, 5)], none) :=
  ⟨by decide,
   ((duplicate_time_rejected oneRecordWorld 1 5 8 ⟨100, 7⟩ (by decide)).2.2.2 (by decide)).1,
   by decide⟩

/-- C2, as stated, fails beyond `10^12` seconds: the samples `(10^12 s, 3)` and
`(10^12 + 1 s, 7)` are recorded successfully, and the history is
`[(10^15, 3), (10^12, 7)]`. The second time is altered, since it is not
`1000 * (10^12 + 1)`, and the times returned are not ascending. -/
theorem history_beyond_seconds_range :
    (∀ e ∈ (recordAll emptyWorld 1 farSamples).2, e = none) ∧
    (AllUsageHistory (recordAll emptyWorld 1 farSamples).1 1).2 =
      ([(1000000000000000, 3), (1000000000000, 7)], none) ∧
    ((1000 * 1000000000001, 7) : Int × Int) ∉
      (AllUsageHistory (recordAll emptyWorld 1 farSamples).1 1).2.1 ∧
    ¬ ((AllUsageHistory (recordAll emptyWorld 1 farSamples).1 1).2.1).Pairwise
      (fun a b => a.1 < b.1) := by
  decide

/-- C2 amended: when every call of a run of `MakeUsageRecord` on an initially
empty store succeeds (the seconds of the samples are then pairwise distinct)
and the times are within `10^12` seconds of the epoch, then, in whatever order
the samples were recorded, `AllUsageHistory` succeeds and returns the pairs
`(1000 * t.Unix(), c)` of exactly those samples, one per call, in strictly
ascending order of time. -/
theorem history_sorted_after_records (w : World) (appID : Int) (samples : List (Time × Int))
    (hH : Healthy (w appID)) (hempty : rowsOf (w appID) = [])
    (hok : ∀ e ∈ (recordAll w appID samples).2, e = none)
    (hrange : ∀ s ∈ samples, readAsSeconds s.1.Unix) :
    ∃ sorted : List Row,
      sorted.Perm (samples.map toRow) ∧
      sorted.Pairwise (fun a b => a.time < b.time) ∧
      (AllUsageHistory (recordAll w appID samples).1 appID).2 =
        (sorted.map (fun r => (1000 * r.time, r.count)), none) ∧
      ((AllUsageHistory (recordAll w appID samples).1 appID).2.1).Pairwise
        (fun a b => a.1 < b.1) := by
  obtain ⟨g1, g2, g3⟩ := recordAll_ok appID samples w hH
    (by rw [hempty]; exact List.Pairwise.nil) hok
  rw [hempty, List.nil_append] at g2
  have hstrict := selectAll_strict _ g3
  have hmem : ∀ x ∈ selectAll (rowsOf ((recordAll w appID samples).1 appID)),
      readAsSeconds x.time := by
    intro x hx
    have hx1 : x ∈ samples.map toRow := by
      rw [← g2]; exact (mem_orderBy _ _ _).1 hx
    obtain ⟨s, hs, rfl⟩ := List.mem_map.1 hx1
    exact hrange s hs
  have hhist : (AllUsageHistory (recordAll w appID samples).1 appID).2 =
      ((selectAll (rowsOf ((recordAll w appID samples).1 appID))).map
        (fun r => (1000 * r.time, r.count)), none) := by
    rw [AllUsageHistory_healthy _ appID g1]
    congr 1
    exact List.map_congr_left (fun x hx => jsRecord_seconds x.time x.count (hmem x hx))
  refine ⟨selectAll (rowsOf ((recordAll w appID samples).1 appID)), ?_, hstrict, hhist, ?_⟩
  · rw [g2]; exact orderBy_perm _ _
  · rw [hhist]
    show ((selectAll _).map _).Pairwise _
    rw [List.pairwise_map]
    refine hstrict.imp ?_
    intro a b hab
    show 1000 * a.time < 1000 * b.time
    omega

/-- C2 amended at a concrete run: three samples recorded out of order. -/
theorem history_sorted_after_records_witness :
    Healthy (emptyWorld 1) ∧ rowsOf (emptyWorld 1) = [] ∧
    (∀ e ∈ (recordAll emptyWorld 1 threeSamples).2, e = none) ∧
    (∀ s ∈ threeSamples, readAsSeconds s.1.Unix) ∧
    (AllUsageHistory (recordAll emptyWorld 1 threeSamples).1 1).2 =
      ([(100000, 5), (200000, 9), (300000, 3)], none) ∧
    ∃ sorted : List Row,
      sorted.Perm (threeSamples.map toRow) ∧
      sorted.Pairwise (fun a b => a.time < b.time) ∧
      (AllUsageHistory (recordAll emptyWorld 1 threeSamples).1 1).2 =
        (sorted.map (fun r => (1000 * r.time, r.count)), none) ∧
      ((AllUsageHistory (recordAll emptyWorld 1 threeSamples).1 1).2.1).Pairwise
        (fun a b => a.1 < b.1) :=
  ⟨by decide, by decide, by decide, by decide, by decide,
   history_sorted_after_records emptyWorld 1 threeSamples (by decide) (by decide) (by decide)
     (by decide)⟩

/-- C4, as stated, fails when `start` has a sub-second part: on the store
`(100, 0)` with `start` = 100.5 s and `end` = 100.9 s no stored record has its
time in `[start, end]`, and the call succeeds with count 0 at 100 s. -/
theorem zero_peak_outside_interval :
    Time.le ⟨100, 500000000⟩ ⟨100, 900000000⟩ ∧
    (∀ r ∈ rowsOf (zeroRecordWorld 1),
      ¬ insideInterval ⟨100, 500000000⟩ ⟨100, 900000000⟩ r) ∧
    (GetPeakBetween zeroRecordWorld ⟨100, 500000000⟩ ⟨100, 900000000⟩ 1).2 =
      ⟨0, unixTime 100, none⟩ := by
  decide

/-- C4 amended: on a store that opens, `GetPeakBetween` fails, and then with
`sql.ErrNoRows`, if and only if no stored record has its time in
`[start.Unix(), end.Unix()]`, the whole seconds of `start` and `end`. When
records are in that interval and all of them have count 0 the call succeeds
with count 0; when none is in it the call never succeeds. -/
theorem peak_not_found_iff (w : World) (start finish : Time) (appID : Int)
    (hopen : Opens (w appID)) :
    ((GetPeakBetween w start finish appID).2.err = some Err.noRows ↔
      ∀ r ∈ rowsOf (w appID), ¬ (start.Unix ≤ r.time ∧ r.time ≤ finish.Unix)) ∧
    ((GetPeakBetween w start finish appID).2.err ≠ none ↔
      ∀ r ∈ rowsOf (w appID), ¬ (start.Unix ≤ r.time ∧ r.time ≤ finish.Unix)) ∧
    ((∃ r ∈ rowsOf (w appID), start.Unix ≤ r.time ∧ r.time ≤ finish.Unix) →
      (∀ r ∈ rowsOf (w appID), start.Unix ≤ r.time → r.time ≤ finish.Unix → r.count = 0) →
      (GetPeakBetween w start finish appID).2.err = none ∧
      (GetPeakBetween w start finish appID).2.count = 0) := by
  rw [GetPeakBetween_open w start finish appID hopen]
  cases hsel : selectPeak (rowsOf (w appID)) start.Unix finish.Unix with
  | none =>
    have hno := (selectPeak_none_iff _ _ _).1 hsel
    refine ⟨⟨fun _ => hno, fun _ => rfl⟩, ⟨fun _ => hno, fun _ => by simp [scanPeak]⟩, ?_⟩
    rintro ⟨r, hr, hb⟩ _
    exact absurd hb (hno r hr)
  | some r =>
    obtain ⟨hmem, hin, _, _⟩ := selectPeak_some _ _ _ r hsel
    refine ⟨⟨fun h => by simp [scanPeak] at h, fun h => absurd hin (h r hmem)⟩,
      ⟨fun h => absurd rfl h, fun h => absurd hin (h r hmem)⟩, ?_⟩
    intro _ hzero
    exact ⟨rfl, hzero r hmem hin.1 hin.2⟩

/-- C4 amended at concrete stores: a zero peak is a result, an empty range is
not. -/
theorem peak_not_found_iff_witness :
    Opens (zeroRecordWorld 1) ∧
    (GetPeakBetween zeroRecordWorld ⟨0, 0⟩ ⟨200, 0⟩ 1).2 = ⟨0, unixTime 100, none⟩ ∧
    (GetPeakBetween zeroRecordWorld ⟨101, 0⟩ ⟨200, 0⟩ 1).2.err = some Err.noRows :=
  ⟨by decide, by decide,
   (peak_not_found_iff zeroRecordWorld ⟨101, 0⟩ ⟨200, 0⟩ 1 (by decide)).1.2 (by decide)⟩

/-- C5: on a store without faults, after `cleanup` the table holds exactly the
rows whose count was not 0, unchanged and in the same order, and no row of
count 0; the history is the former history without the pairs of count 0, and
the files of other applications are untouched. After recording `(t1,0)`,
`(t2,7)`, `(t3,0)` at distinct seconds into an empty store and cleaning up, the
history is exactly the pair of `(t2,7)`, which is `(1000 * t2.Unix(), 7)` when
the driver reads the time as seconds. -/
theorem cleanup_removes_zero_rows (w : World) (appID : Int) (hH : Healthy (w appID)) :
    rowsOf (cleanup w appID appID) = (rowsOf (w appID)).filter (fun r => r.count != 0) ∧
    (∀ r, r ∈ rowsOf (cleanup w appID appID) ↔ r ∈ rowsOf (w appID) ∧ r.count ≠ 0) ∧
    (AllUsageHistory (cleanup w appID) appID).2 =
      (((AllUsageHistory w appID).2.1).filter (fun q => q.2 != 0), none) ∧
    (∀ j, j ≠ appID → cleanup w appID j = w j) ∧
    (∀ t1 t2 t3 : Time, rowsOf (w appID) = [] →
      t1.Unix ≠ t2.Unix → t1.Unix ≠ t3.Unix → t2.Unix ≠ t3.Unix →
      (AllUsageHistory
        (cleanup (recordAll w appID [(t1, 0), (t2, 7), (t3, 0)]).1 appID) appID).2 =
        ([jsRecord ⟨t2.Unix, 7⟩], none) ∧
      (readAsSeconds t2.Unix →
        (AllUsageHistory
          (cleanup (recordAll w appID [(t1, 0), (t2, 7), (t3, 0)]).1 appID) appID).2 =
          ([(1000 * t2.Unix, 7)], none))) := by
  have hrows : ∀ w1 : World, Healthy (w1 appID) →
      rowsOf (cleanup w1 appID appID) = deleteZero (rowsOf (w1 appID)) := by
    intro w1 h1
    rw [cleanup_same, cleanFile_healthy _ h1]
    rfl
  have hhealthy : ∀ w1 : World, Healthy (w1 appID) → Healthy (cleanup w1 appID appID) := by
    intro w1 h1
    rw [cleanup_same, cleanFile_healthy _ h1]
    exact h1
  have hhist : ∀ w1 : World, Healthy (w1 appID) →
      (AllUsageHistory (cleanup w1 appID) appID).2 =
        ((selectAll (deleteZero (rowsOf (w1 appID)))).map jsRecord, none) := by
    intro w1 h1
    rw [AllUsageHistory_healthy _ appID (hhealthy w1 h1), hrows w1 h1]
  refine ⟨hrows w hH, ?_, ?_, fun j hj => cleanup_other w appID j hj, ?_⟩
  · intro r
    rw [hrows w hH]
    simp [deleteZero, List.mem_filter]
  · rw [hhist w hH, AllUsageHistory_healthy w appID hH, history_deleteZero]
  · intro t1 t2 t3 hempty h12 h13 h23
    have hnd : (rowsOf (w appID) ++ [(t1, (0 : Int)), (t2, 7), (t3, 0)].map toRow).Pairwise
        (fun a b => a.time ≠ b.time) := by
      rw [hempty]
      simp [toRow, h12, h13, h23]
    have hok := recordAll_distinct appID _ w hH hnd
    obtain ⟨g1, g2, _⟩ := recordAll_ok appID _ w hH
      (by rw [hempty]; exact List.Pairwise.nil) hok
    have hres : (AllUsageHistory
        (cleanup (recordAll w appID [(t1, 0), (t2, 7), (t3, 0)]).1 appID) appID).2 =
        ([jsRecord ⟨t2.Unix, 7⟩], none) := by
      rw [hhist _ g1, g2, hempty]
      simp [toRow, deleteZero, selectAll, orderBy, insertBy]
    refine ⟨hres, fun hr => ?_⟩
    rw [hres, jsRecord_seconds t2.Unix 7 hr]

/-- C5 at a concrete store: `(100,0)`, `(200,7)`, `(300,0)`. -/
theorem cleanup_removes_zero_rows_witness :
    Healthy (zeroSevenZeroWorld 1) ∧
    rowsOf (cleanup zeroSevenZeroWorld 1 1) = [⟨200, 7⟩] ∧
    (AllUsageHistory (cleanup zeroSevenZeroWorld 1) 1).2 =
      (((AllUsageHistory zeroSevenZeroWorld 1).2.1).filter (fun q => q.2 != 0), none) ∧
    (AllUsageHistory (cleanup zeroSevenZeroWorld 1) 1).2 = ([(200000, 7)], none) :=
  ⟨by decide, by decide,
   (cleanup_removes_zero_rows zeroSevenZeroWorld 1 (by decide)).2.2.1, by decide⟩

/-- C6, as stated, fails when `start` has a sub-second part: the query uses
`start.Unix()`. On the store `(150, 9)`, `(100, 9)`, `(160, 9)` with `start` =
100.5 s and `end` = 200 s, the records inside `[start, end]` are those at 150 s
and 160 s, both with the maximal count 9, so the smallest time among them is
150 s; the call returns the time 100 s, which is before `start`. -/
theorem peak_tie_before_start :
    ((⟨150, 9⟩ : Row) ∈ rowsOf (threeTiedWorld 1) ∧
      insideInterval ⟨100, 500000000⟩ ⟨200, 0⟩ ⟨150, 9⟩) ∧
    ((⟨160, 9⟩ : Row) ∈ rowsOf (threeTiedWorld 1) ∧
      insideInterval ⟨100, 500000000⟩ ⟨200, 0⟩ ⟨160, 9⟩) ∧
    (∀ r ∈ rowsOf (threeTiedWorld 1), insideInterval ⟨100, 500000000⟩ ⟨200, 0⟩ r →
      r.count ≤ 9 ∧ 150 ≤ r.time) ∧
    (GetPeakBetween threeTiedWorld ⟨100, 500000000⟩ ⟨200, 0⟩ 1).2 = ⟨9, unixTime 100, none⟩ ∧
    (GetPeakBetween threeTiedWorld ⟨100, 500000000⟩ ⟨200, 0⟩ 1).2.time ≠ unixTime 150 ∧
    ¬ Time.le ⟨100, 500000000⟩
      (GetPeakBetween threeTiedWorld ⟨100, 500000000⟩ ⟨200, 0⟩ 1).2.time := by
  decide

/-- C6 amended: when records of a store that opens have their time in
`[start.Unix(), end.Unix()]`, the whole seconds of `start` and `end`,
`GetPeakBetween` returns the count and the scanned time of one of them, the one
with the smallest time among those with the maximal count: earliest time wins.
The result does not depend on the order in which the records were inserted,
and the returned time is the record's own time when that time is within
`10^12` seconds of the epoch. -/
theorem peak_tie_earliest (w : World) (start finish : Time) (appID : Int)
    (hopen : (w appID).openFault = false)
    (hex : ∃ r ∈ rowsOf (w appID), start.Unix ≤ r.time ∧ r.time ≤ finish.Unix) :
    (∃ r ∈ rowsOf (w appID), (start.Unix ≤ r.time ∧ r.time ≤ finish.Unix) ∧
      (GetPeakBetween w start finish appID).2 = ⟨r.count, scanTime r.time, none⟩ ∧
      (∀ x ∈ rowsOf (w appID), start.Unix ≤ x.time → x.time ≤ finish.Unix →
        x.count ≤ r.count) ∧
      (∀ x ∈ rowsOf (w appID), start.Unix ≤ x.time → x.time ≤ finish.Unix →
        x.count = r.count → r.time ≤ x.time) ∧
      (readAsSeconds r.time →
        (GetPeakBetween w start finish appID).2 = ⟨r.count, unixTime r.time, none⟩)) ∧
    (∀ w2 : World, (w2 appID).openFault = false →
      (rowsOf (w2 appID)).Perm (rowsOf (w appID)) →
      (rowsOf (w appID)).Pairwise (fun a b => a.time ≠ b.time) →
      (GetPeakBetween w2 start finish appID).2 = (GetPeakBetween w start finish appID).2) := by
  obtain ⟨r0, hr0, hb0⟩ := hex
  have hO := opens_of_rows _ hopen r0 hr0
  rw [GetPeakBetween_open w start finish appID hO]
  refine ⟨?_, ?_⟩
  · cases hsel : selectPeak (rowsOf (w appID)) start.Unix finish.Unix with
    | none => exact absurd hb0 ((selectPeak_none_iff _ _ _).1 hsel r0 hr0)
    | some r =>
      obtain ⟨hmem, hin, hmax, hfirst⟩ := selectPeak_some _ _ _ r hsel
      exact ⟨r, hmem, hin, rfl, hmax, hfirst, fun hr => scanPeak_seconds r hr⟩
  · intro w2 hopen2 hperm hnd
    have hO2 : Opens (w2 appID) := opens_of_rows _ hopen2 r0 (hperm.mem_iff.2 hr0)
    rw [GetPeakBetween_open w2 start finish appID hO2, selectPeak_perm _ _ _ _ hperm hnd]

/-- C6 amended at concrete stores: two records of count 9, in either insertion
order the peak is reported at the earlier time. -/
theorem peak_tie_earliest_witness :
    (tiedWorld 1).openFault = false ∧
    (∃ r ∈ rowsOf (tiedWorld 1), (⟨0, 0⟩ : Time).Unix ≤ r.time ∧
      r.time ≤ (⟨300, 0⟩ : Time).Unix) ∧
    (GetPeakBetween tiedWorld ⟨0, 0⟩ ⟨300, 0⟩ 1).2 = ⟨9, unixTime 100, none⟩ ∧
    (GetPeakBetween tiedWorldSwapped ⟨0, 0⟩ ⟨300, 0⟩ 1).2 =
      (GetPeakBetween tiedWorld ⟨0, 0⟩ ⟨300, 0⟩ 1).2 :=
  ⟨by decide, ⟨⟨200, 9⟩, by decide, by decide, by decide⟩, by decide,
   (peak_tie_earliest tiedWorld ⟨0, 0⟩ ⟨300, 0⟩ 1 (by decide)
     ⟨⟨200, 9⟩, by decide, by decide, by decide⟩).2 tiedWorldSwapped
     (by decide) (List.Perm.swap _ _ _) (by decide)⟩

/-- C7, as stated, fails: on the empty store a record with count `-1` is
accepted and its row appears in the history. -/
theorem negative_count_is_recorded :
    (MakeUsageRecord emptyWorld 1 (-1) ⟨100, 0⟩).2 = none ∧
    (AllUsageHistory emptyWorld 1).2 = ([], none) ∧
    (AllUsageHistory (MakeUsageRecord emptyWorld 1 (-1) ⟨100, 0⟩).1 1).2 =
      ([(100000, -1)], none) := by
  decide

/-- C7 amended: on a store without faults a negative count is treated like any
other count. The call fails exactly when a record at that second exists, with
the primary-key error and no change; otherwise it succeeds and the history
gains the pair of the new row, which is `(1000 * t.Unix(), c)` when the driver
reads the time as seconds. -/
theorem negative_count_like_any_count (w : World) (appID c : Int) (t : Time)
    (hneg : c < 0) (hH : Healthy (w appID)) :
    ((MakeUsageRecord w appID c t).2 = none ↔ ∀ r ∈ rowsOf (w appID), r.time ≠ t.Unix) ∧
    ((MakeUsageRecord w appID c t).2 = none →
      ((AllUsageHistory (MakeUsageRecord w appID c t).1 appID).2.1).Perm
        (jsRecord ⟨t.Unix, c⟩ :: (AllUsageHistory w appID).2.1) ∧
      (jsRecord ⟨t.Unix, c⟩).2 = c ∧
      (readAsSeconds t.Unix →
        ((AllUsageHistory (MakeUsageRecord w appID c t).1 appID).2.1).Perm
          ((1000 * t.Unix, c) :: (AllUsageHistory w appID).2.1))) ∧
    ((MakeUsageRecord w appID c t).2 ≠ none →
      (MakeUsageRecord w appID c t).2 = some Err.constraintUnique ∧
      (MakeUsageRecord w appID c t).1 = w) := by
  have _ := hneg
  have hiff := MakeUsageRecord_ok_iff w appID c t
  refine ⟨⟨fun h => (hiff.1 h).2, fun h => hiff.2 ⟨hH, h⟩⟩, ?_, ?_⟩
  · intro h
    have hperm := (history_after_fresh w appID c t hH (hiff.1 h).2).2
    refine ⟨hperm, rfl, fun hr => ?_⟩
    rw [← jsRecord_seconds t.Unix c hr]
    exact hperm
  · intro h
    have hdup : ∃ r ∈ rowsOf (w appID), r.time = t.Unix := by
      by_contra hno
      push_neg at hno
      exact h (hiff.2 ⟨hH, hno⟩)
    obtain ⟨h1, _, h3⟩ := MakeUsageRecord_dup w appID c t hdup
    exact ⟨h3 hH, h1⟩

/-- C7 amended at a concrete store: count `-3` at a free second is written. -/
theorem negative_count_like_any_count_witness :
    (-3 : Int) < 0 ∧ Healthy (oneRecordWorld 1) ∧
    (MakeUsageRecord oneRecordWorld 1 (-3) ⟨200, 0⟩).2 = none ∧
    (AllUsageHistory (MakeUsageRecord oneRecordWorld 1 (-3) ⟨200, 0⟩).1 1).2 =
      ([(100000, 5), (200000, -3)], none) :=
  ⟨by decide, by decide,
   (negative_count_like_any_count oneRecordWorld 1 (-3) ⟨200, 0⟩ (by decide) (by decide)).1.2
     (by decide),
   by decide⟩

/-- C8: `cleanup` is idempotent: a second run right after the first leaves
every file as the first run left it, whatever the state of the store. -/
theorem cleanup_idempotent (w : World) (appID : Int) :
    cleanup (cleanup w appID) appID = cleanup w appID := by
  rw [cleanup_eq (cleanup w appID) appID, cleanup_same, cleanFile_idem, cleanup_eq]
  simp

/-- C9, as stated, fails beyond `10^12` seconds: the driver reads a stored
time above `10^12` as milliseconds. The sample `(10^12 + 1 s, 7)` is recorded
successfully, and the pair returned for it has the time `10^12`, not
`1000 * (10^12 + 1)`. -/
theorem history_pair_beyond_seconds_range :
    (MakeUsageRecord emptyWorld 1 7 ⟨1000000000001, 0⟩).2 = none ∧
    (AllUsageHistory (MakeUsageRecord emptyWorld 1 7 ⟨1000000000001, 0⟩).1 1).2 =
      ([(1000000000000, 7)], none) ∧
    ((1000 * (⟨1000000000001, 0⟩ : Time).Unix, 7) : Int × Int) ∉
      (AllUsageHistory (MakeUsageRecord emptyWorld 1 7 ⟨1000000000001, 0⟩).1 1).2.1 := by
  decide

/-- C9 amended: for a time `t` within `10^12` seconds of the epoch, a
successful `MakeUsageRecord(appID, c, t)` adds exactly one pair to what
`AllUsageHistory` returns, the pair `(1000 * t.Unix(), c)`: the time in
milliseconds, a multiple of 1000, and the count unchanged; the sub-second part
of `t` plays no role. -/
theorem history_pair_of_record (w : World) (appID c : Int) (t : Time)
    (hok : (MakeUsageRecord w appID c t).2 = none) (hrange : readAsSeconds t.Unix) :
    (AllUsageHistory (MakeUsageRecord w appID c t).1 appID).2.2 = none ∧
    ((AllUsageHistory (MakeUsageRecord w appID c t).1 appID).2.1).Perm
      ((1000 * t.Unix, c) :: (AllUsageHistory w appID).2.1) ∧
    (∀ n : Nat, MakeUsageRecord w appID c ⟨t.sec, n⟩ = MakeUsageRecord w appID c t) := by
  obtain ⟨hH, hfree⟩ := (MakeUsageRecord_ok_iff w appID c t).1 hok
  obtain ⟨h1, h2⟩ := history_after_fresh w appID c t hH hfree
  rw [jsRecord_seconds t.Unix c hrange] at h2
  exact ⟨h1, h2, fun _ => rfl⟩

/-- C9 amended at a concrete sample: 200.5 s after the epoch, count 12. -/
theorem history_pair_of_record_witness :
    (MakeUsageRecord oneRecordWorld 1 12 ⟨200, 500000000⟩).2 = none ∧
    readAsSeconds (⟨200, 500000000⟩ : Time).Unix ∧
    ((AllUsageHistory (MakeUsageRecord oneRecordWorld 1 12 ⟨200, 500000000⟩).1 1).2.1).Perm
      ((200000, 12) :: (AllUsageHistory oneRecordWorld 1).2.1) :=
  ⟨by decide, by decide,
   (history_pair_of_record oneRecordWorld 1 12 ⟨200, 500000000⟩ (by decide) (by decide)).2.1⟩

/-- C10: `HistoryCleanup` returns an error exactly when listing the
applications failed, and then it is that error and no file is touched. When the
listing succeeds the result is nil, the file of every listed application is
what its own `cleanup` makes of it, regardless of the faults of the other
listed applications (a store that cannot be opened or written is left as it
is), so every listed store without faults loses exactly its rows of count 0;
files of applications that are not listed are untouched. -/
theorem history_cleanup_isolates_failures (allUsableApps : Except Err (List App))
    (w : World) :
    ((HistoryCleanup allUsableApps w).2 ≠ none ↔ ∃ e, allUsableApps = .error e) ∧
    (∀ e, allUsableApps = .error e → HistoryCleanup allUsableApps w = (w, some e)) ∧
    (∀ l, allUsableApps = .ok l →
      (HistoryCleanup allUsableApps w).2 = none ∧
      (HistoryCleanup allUsableApps w).1 = l.foldl (fun w1 app => cleanup w1 app.ID) w ∧
      (∀ a ∈ l, (HistoryCleanup allUsableApps w).1 a.ID = cleanup w a.ID a.ID) ∧
      (∀ a ∈ l, Healthy (w a.ID) →
        rowsOf ((HistoryCleanup allUsableApps w).1 a.ID) =
          (rowsOf (w a.ID)).filter (fun r => r.count != 0)) ∧
      (∀ j, j ∉ l.map App.ID → (HistoryCleanup allUsableApps w).1 j = w j)) := by
  cases allUsableApps with
  | error e =>
    refine ⟨⟨fun _ => ⟨e, rfl⟩, fun _ => by simp [HistoryCleanup]⟩, ?_, ?_⟩
    · intro e1 he
      cases he
      rfl
    · intro l hl
      cases hl
  | ok l =>
    refine ⟨⟨fun h => absurd rfl h, ?_⟩, ?_, ?_⟩
    · rintro ⟨e, he⟩
      cases he
    · intro e he
      cases he
    · intro l1 hl
      cases hl
      have hfile : ∀ a ∈ l, (HistoryCleanup (.ok l) w).1 a.ID = cleanFile (w a.ID) := by
        intro a ha
        show l.foldl (fun w1 app => cleanup w1 app.ID) w a.ID = _
        rw [foldl_cleanup, if_pos (List.mem_map.2 ⟨a, ha, rfl⟩)]
      refine ⟨rfl, rfl, ?_, ?_, ?_⟩
      · intro a ha
        rw [hfile a ha, cleanup_same]
      · intro a ha hH
        rw [hfile a ha, cleanFile_healthy _ hH]
        rfl
      · intro j hj
        show l.foldl (fun w1 app => cleanup w1 app.ID) w j = _
        rw [foldl_cleanup, if_neg hj]

/-- C10 at a concrete directory: the stores of applications 1 and 3 fail, the
store of application 2, listed between them, is cleaned all the same. -/
theorem history_cleanup_isolates_failures_witness :
    (HistoryCleanup (.ok [⟨1, "a"⟩, ⟨2, "b"⟩, ⟨3, "c"⟩]) mixedWorld).2 = none ∧
    rowsOf ((HistoryCleanup (.ok [⟨1, "a"⟩, ⟨2, "b"⟩, ⟨3, "c"⟩]) mixedWorld).1 2) =
      [⟨200, 4⟩] ∧
    (HistoryCleanup (.error Err.appsUnavailable) mixedWorld).2 = some Err.appsUnavailable :=
  ⟨((history_cleanup_isolates_failures (.ok [⟨1, "a"⟩, ⟨2, "b"⟩, ⟨3, "c"⟩]) mixedWorld).2.2
      _ rfl).1,
   by decide, by decide⟩

end History
